import Mathlib

/-!
Verification development for the header-numbering / outline-reconstruction
core of the PDF-Analist repository (`src/pdf/headers.py`).

The Python module is shallowly embedded below.  The PDF opening and the
markdown rendering performed by the external libraries (`pymupdf`,
`pymupdf4llm`) are outside the repository; the pipeline is therefore
modelled from the point where the rendered markdown lines are available,
i.e. `extract_headers` takes the list of rendered lines.

Python `dict` counters are modelled as `Nat → Option Nat`; a lookup of a
missing key (Python `KeyError`) is `none`, so every operation that reads
the dictionary is `Option`-valued and raising is observable as `none`.
Levels are natural numbers; the only subtraction whose Python (`int`)
value could be negative is `level - offset`, and it is immediately clamped
by `max ... 1`, on which truncated `Nat` subtraction agrees with `int`
subtraction (both give 1 whenever `level ≤ offset`).
-/

/-- Whitespace characters stripped by Python's `str.strip()`. -/
def pySpace : List Char := [' ', '\t', '\n', '\x0b', '\x0c', '\r']

/-- Python `s.strip(bad)`: remove characters of `bad` from both ends. -/
def stripChars (bad : List Char) (l : List Char) : List Char :=
  ((l.dropWhile (bad.contains ·)).reverse.dropWhile (bad.contains ·)).reverse

/-- Python `s.strip()` on a character list. -/
def py_strip (l : List Char) : List Char := stripChars pySpace l

/-- Python `line.strip()` on a string. -/
def py_strip_str (s : String) : String := (py_strip s.toList).asString

/-- The character set of `strip(' *.0123456789 ')` in `clean_header_text`. -/
def cleanSet : List Char :=
  [' ', '*', '.', '0', '1', '2', '3', '4', '5', '6', '7', '8', '9']

/-- `clean_header_text` (headers.py line 15): `header.lstrip('#').strip(' *.0123456789 ').strip()`. -/
def clean_header_text (h : String) : String :=
  (py_strip (stripChars cleanSet (h.toList.dropWhile (· == '#')))).asString

/-- Python `sep.join(parts)`. -/
def py_join (sep : String) : List String → String
  | [] => ""
  | [x] => x
  | x :: y :: xs => x ++ sep ++ py_join sep (y :: xs)

/-- Python `str(n)` for the (always non-negative) counter values. -/
def str_of_nat (n : Nat) : String := Nat.repr n

/-- The Python counters `dict`: a finite partial map from level to count. -/
def Counters : Type := Nat → Option Nat

/-- `{i: 0 for i in range(1, 7)}` (headers.py line 82). -/
def initCounters : Counters := fun i => if 1 ≤ i ∧ i ≤ 6 then some 0 else none

/-- Dictionary assignment `counters[k] = v`. -/
def cset (c : Counters) (k v : Nat) : Counters :=
  fun i => if i = k then some v else c i

/-- Dictionary increment `counters[k] += 1`; `none` models the `KeyError`
raised when key `k` is absent. -/
def cinc (c : Counters) (k : Nat) : Option Counters :=
  (c k).map (fun v => cset c k (v + 1))

/-- The loop `for x in range(level + 1, 7): counters[x] = 0` (headers.py line 58). -/
def zeroDeep (c : Counters) (level : Nat) : Counters :=
  fun i => if level + 1 ≤ i ∧ i ≤ 6 then some 0 else c i

/-- `update_counters` (headers.py lines 48-61). -/
def update_counters (c : Counters) (level previous : Nat) : Option Counters :=
  (if level = previous then cinc c level
   else if previous < level then some (cset c level 1)
   else cinc c level).map (fun c1 => zeroDeep c1 level)

/-- `parts = [str(counters[i]) for i in range(1, level + 1)]` followed by
`".".join(parts)` — the fall-through branch of `calculate_numbering`. -/
def join_parts (c : Counters) (level : Nat) : Option String :=
  ((List.range' 1 level).mapM (fun i => (c i).map str_of_nat)).map (py_join ".")

/-- `calculate_numbering` (headers.py lines 29-45). -/
def calculate_numbering (c : Counters) (level : Nat)
    (title_exists : Bool) (min_level : Nat) : Option String :=
  if title_exists then
    if level = min_level + 1 then (c 2).map str_of_nat
    else if level = min_level + 2 then
      (c 2).bind (fun a => (c 3).map (fun b =>
        str_of_nat a ++ "." ++ str_of_nat b))
    else join_parts c level
  else
    if level = 1 then (c 1).map str_of_nat
    else if level = 2 then
      (c 1).bind (fun a => (c 2).map (fun b =>
        str_of_nat a ++ "." ++ str_of_nat b))
    else if level = 3 then
      (c 1).bind (fun a => (c 2).bind (fun b => (c 3).map (fun d =>
        str_of_nat a ++ "." ++ str_of_nat b ++ "." ++ str_of_nat d)))
    else join_parts c level

/-- The clamp `current_level = min(current_level, previous_level + 1)`
(headers.py line 87). -/
def effective_level (level previous : Nat) : Nat := min level (previous + 1)

/-- The sequence of effective levels produced by the clamp of
`process_header_levels` as `previous_level` advances. -/
def effective_levels : Nat → List Nat → List Nat
  | _, [] => []
  | prev, l :: rest =>
    effective_level l prev :: effective_levels (effective_level l prev) rest

/-- The loop of `process_header_levels` (headers.py lines 85-99), also
exposing the final counter state and `previous_level` for analysis. -/
def phl_aux (has_title : Bool) (min_level : Nat) :
    List (Nat × String) → Counters → Nat → Option (List String × Counters × Nat)
  | [], c, prev => some ([], c, prev)
  | (lvl, header) :: rest, c, prev =>
    (update_counters c (effective_level lvl prev) prev).bind (fun c1 =>
      (calculate_numbering c1 (effective_level lvl prev) has_title min_level).bind
        (fun num =>
          (phl_aux has_title min_level rest c1 (effective_level lvl prev)).map
            (fun r =>
              ((num ++ ". " ++ clean_header_text header) :: r.1, r.2))))

/-- `process_header_levels` (headers.py lines 79-101). -/
def process_header_levels (levels : List (Nat × String))
    (has_title : Bool) (min_level : Nat) : Option (List String) :=
  (phl_aux has_title min_level levels initCounters min_level).map (fun r => r.1)

/-- Python `min` over a list of levels; `min([])` raises in Python and is
never reached (callers guard non-emptiness), here it is given the junk
value 0. -/
def list_min : List Nat → Nat
  | [] => 0
  | x :: xs => xs.foldl min x

/-- `process_title_detection` (headers.py lines 64-76).  Note the removal
filters by header-text equality `h != headers_min_level[0]`. -/
def process_title_detection (levels : List (Nat × String)) :
    List (Nat × String) × Option String × Nat :=
  let min_level := list_min (levels.map Prod.fst)
  match (levels.filter (fun p => p.1 == min_level)).map Prod.snd with
  | [h0] =>
    (levels.filter (fun p => !(p.2 == h0)),
     some ("Title: " ++ clean_header_text h0), min_level)
  | _ => (levels, none, min_level)

/-- `normalize_header_levels` (headers.py lines 20-26):
`new_level = max(level - offset, 1)`. -/
def normalize_header_levels (headers_with_levels : List (Nat × String))
    (offset : Nat) : List (Nat × String) :=
  headers_with_levels.map (fun p => (max (p.1 - offset) 1, p.2))

/-- Python `line.strip().startswith('#')`: the first character is '#'. -/
def starts_hash (s : String) : Bool :=
  match s.toList with
  | [] => false
  | c :: _ => c == '#'

/-- `header.count('#')` (headers.py line 140): the number of occurrences
of '#' anywhere in the string. -/
def countHash (s : String) : Nat := s.toList.count '#'

/-- The sentinel returned when no heading line is found (headers.py line 137). -/
def sentinel : String := "No valid headers identified."

/-- The heading filter of `extract_headers` (headers.py lines 130-134):
stripped lines whose stripped form starts with '#'. -/
def extract_header_lines (lines : List String) : List String :=
  (lines.map py_strip_str).filter starts_hash

/-- `levels = [(header.count('#'), header) for header in headers]`
(headers.py line 140): the raw markup level assigned to each retained line. -/
def raw_header_levels (lines : List String) : List (Nat × String) :=
  (extract_header_lines lines).map (fun h => (countHash h, h))

/-- `levels[0][0]` (headers.py line 141); the empty case is unreachable,
being guarded by the emptiness check on line 136. -/
def first_raw_level (headers : List String) : Nat :=
  match headers with
  | [] => 0
  | h0 :: _ => countHash h0

/-- `extract_headers` (headers.py lines 104-159), from the point where the
externally rendered markdown lines are available. -/
def extract_headers (lines : List String) : Option String :=
  let headers := extract_header_lines lines
  if headers = [] then some sentinel
  else
    let offset := first_raw_level headers - 1
    let levels1 := normalize_header_levels
      (headers.map (fun h => (countHash h, h))) offset
    let res := process_title_detection levels1
    let output := match res.2.1 with
      | some t => ["\n" ++ t]
      | none => []
    (process_header_levels res.1 (res.2.1).isSome res.2.2).map
      (fun formatted => py_join "\n" (output ++ formatted))

/-- Modelled from the spec: "count consecutive leading marker characters
to obtain `rawMarkupLevel`" — the length of the leading run of '#'. -/
def leading_marker_count (s : String) : Nat :=
  (s.toList.takeWhile (· == '#')).length

/-- A concrete counter state for the C3 amended witness. -/
def cW3 : Counters := fun i =>
  if i = 1 then some 0
  else if i = 2 then some 4
  else if i = 3 then some 5
  else none

/-- The counter dictionary has an entry for every level from 1 up to `n`. -/
def goodC (c : Counters) (n : Nat) : Prop :=
  ∀ i, 1 ≤ i → i ≤ n → (c i).isSome = true

/-- Dictionary update at a different key leaves other keys unchanged. -/
theorem cset_ne (c : Counters) (k v i : Nat) (h : i ≠ k) : cset c k v i = c i :=
  if_neg h

/-- C1: every heading's effective level is `min(level, previous + 1)` with
`previous` advancing to the effective level just computed, so along the
whole numbering pass each effective level exceeds the previous effective
level (starting from `min_level`) by at most one. -/
theorem numbering_clamps_effective_levels :
    ∀ (previous : Nat) (ls : List Nat),
      List.Chain (fun a b => b ≤ a + 1) previous (effective_levels previous ls) := by
  intro previous ls
  induction ls generalizing previous with
  | nil => exact List.Chain.nil
  | cons l rest ih =>
    exact List.Chain.cons (Nat.min_le_right l (previous + 1)) (ih _)

/-- C2 counterexample: running the numbering loop of
`process_header_levels` on the pipeline-reachable heading sequence with
effective levels 1,1,2,3,4,5,6,7,1, the final step processes a heading
at effective level 1 yet leaves the strictly deeper counter at level 7
holding 1, not 0 — the cascade reset stops at level 6. -/
theorem cascade_reset_misses_level_seven :
    (phl_aux false 1
      [(1, "# a"), (1, "# b"), (2, "## c"), (3, "### d"), (4, "#### e"),
       (5, "##### f"), (6, "###### g"), (7, "####### h"), (1, "# i")]
      initCounters 1).map (fun r => (r.2.1 7, r.2.2)) = some (some 1, 1) ∧
    (some 1 : Option Nat) ≠ some 0 := by
  exact ⟨by decide, by decide⟩

/-- C2 amended: after `update_counters`, every counter at a level strictly
deeper than the current one *and at most 6* is zero; counters at levels
above 6 (other than the current level itself) are left untouched by the
reset loop `for x in range(level + 1, 7)`. -/
theorem update_counters_cascade_bounded :
    ∀ (c : Counters) (level previous : Nat) (c' : Counters),
      update_counters c level previous = some c' →
      (∀ j, level < j → j ≤ 6 → c' j = some 0) ∧
      (∀ j, 6 < j → j ≠ level → c' j = c j) := by
  intro c level previous c' h
  have key : ∃ c1, c' = zeroDeep c1 level ∧ ∀ j, j ≠ level → c1 j = c j := by
    unfold update_counters at h
    obtain ⟨c1, hB, hz⟩ := Option.map_eq_some'.mp h
    refine ⟨c1, hz.symm, ?_⟩
    intro j hj
    by_cases h1 : level = previous
    · rw [if_pos h1] at hB
      obtain ⟨v, _, rfl⟩ := Option.map_eq_some'.mp hB
      exact cset_ne _ _ _ _ hj
    · rw [if_neg h1] at hB
      by_cases h2 : previous < level
      · rw [if_pos h2] at hB
        obtain rfl := Option.some.inj hB
        exact cset_ne _ _ _ _ hj
      · rw [if_neg h2] at hB
        obtain ⟨v, _, rfl⟩ := Option.map_eq_some'.mp hB
        exact cset_ne _ _ _ _ hj
  obtain ⟨c1, rfl, hc1⟩ := key
  constructor
  · intro j hjl hj6
    simp only [zeroDeep]
    rw [if_pos ⟨hjl, hj6⟩]
  · intro j hj6 hjne
    have hcond : ¬(level + 1 ≤ j ∧ j ≤ 6) := by omega
    simp only [zeroDeep]
    rw [if_neg hcond]
    exact hc1 j hjne

/-- Witness for the amended C2 theorem at a concrete update. -/
theorem update_counters_cascade_bounded_witness :
    zeroDeep (cset initCounters 2 1) 2 3 = some 0 ∧
    zeroDeep (cset initCounters 2 1) 2 7 = initCounters 7 := by
  have h := update_counters_cascade_bounded initCounters 2 1
      (zeroDeep (cset initCounters 2 1) 2) rfl
  exact ⟨h.1 3 (by omega) (by omega), h.2 7 (by omega) (by omega)⟩

/-- C3 counterexample: in the reachable titled state right after the first
numbered heading (`counters = {1:0, 2:1, 3:0, ...}`), the special-cased
branch for `level = minLevel + 1` yields "1" while the general rule
joining `counters[i]` for `i` in `1..level` yields "0.1"; the special
cases are therefore not identical to the general join rule.  On a full
pipeline run the divergence surfaces at depth 4, where the general rule
emits the label "0.1.1.1" instead of "1.1.1". -/
theorem title_special_cases_differ_from_general_join :
    ((update_counters initCounters 2 1).bind
      (fun c => calculate_numbering c 2 true 1)) = some "1" ∧
    ((update_counters initCounters 2 1).bind
      (fun c => join_parts c 2)) = some "0.1" ∧
    ("1" : String) ≠ "0.1" ∧
    extract_headers ["# T", "## A", "### B", "#### C"]
      = some "\nTitle: T\n1. A\n1.1. B\n0.1.1.1. C" :=
  ⟨by decide, by decide, by decide, by decide⟩

/-- C3 amended: the special-cased title branches of `calculate_numbering`
for `level = minLevel + 1` and `minLevel + 2` (with `minLevel = 1` as in
every pipeline run) equal the dot-join of `counters[i]` for `i` in
`2..level`; in every counter state where `counters[1] = 0` — which holds
in all reachable titled states, level 1 never being visited — the general
rule joining `1..level` instead produces those labels with an extra
leading "0.". -/
theorem calculate_numbering_title_prefix :
    ∀ (c : Counters) (a b : Nat),
      c 1 = some 0 → c 2 = some a → c 3 = some b →
      calculate_numbering c 2 true 1 = some (str_of_nat a) ∧
      calculate_numbering c 3 true 1
        = some (str_of_nat a ++ "." ++ str_of_nat b) ∧
      join_parts c 2 = some ("0." ++ str_of_nat a) ∧
      join_parts c 3
        = some ("0." ++ (str_of_nat a ++ "." ++ str_of_nat b)) := by
  intro c a b h1 h2 h3
  have hz : str_of_nat 0 ++ "." = "0." := by decide
  refine ⟨?_, ?_, ?_, ?_⟩
  · simp [calculate_numbering, h2]
  · simp [calculate_numbering, h2, h3]
  · simp only [join_parts, List.range', List.mapM_cons, List.mapM_nil,
      h1, h2, Option.bind_eq_bind, Option.some_bind, Option.map_some',
      Option.pure_def]
    simp [py_join, hz]
  · simp only [join_parts, List.range', List.mapM_cons, List.mapM_nil,
      h1, h2, h3, Option.bind_eq_bind, Option.some_bind, Option.map_some',
      Option.pure_def]
    simp [py_join, hz, String.append_assoc]

/-- Witness for the amended C3 theorem at a concrete counter state. -/
theorem calculate_numbering_title_prefix_witness :
    calculate_numbering cW3 2 true 1 = some (str_of_nat 4) ∧
    calculate_numbering cW3 3 true 1
      = some (str_of_nat 4 ++ "." ++ str_of_nat 5) ∧
    join_parts cW3 2 = some ("0." ++ str_of_nat 4) ∧
    join_parts cW3 3 = some ("0." ++ (str_of_nat 4 ++ "." ++ str_of_nat 5)) :=
  calculate_numbering_title_prefix cW3 4 5 rfl rfl rfl

/-- C4: on the input `["# Intro", "## Sec1", "## Sec2", "### Sub1"]` the
pipeline normalizes the levels to [1,2,2,3], promotes the single
minimum-level heading "Intro" to the title, and numbers the remaining
headings Sec1→"1", Sec2→"2", Sub1→"2.1" (the text-cleaning step also
strips the trailing digit of each displayed heading text). -/
theorem pipeline_title_example :
    (normalize_header_levels
      (["# Intro", "## Sec1", "## Sec2", "### Sub1"].map
        (fun h => (countHash h, h))) (countHash "# Intro" - 1)).map Prod.fst
      = [1, 2, 2, 3] ∧
    (process_title_detection (normalize_header_levels
      (["# Intro", "## Sec1", "## Sec2", "### Sub1"].map
        (fun h => (countHash h, h))) (countHash "# Intro" - 1))).2.1
      = some "Title: Intro" ∧
    extract_headers ["# Intro", "## Sec1", "## Sec2", "### Sub1"]
      = some "\nTitle: Intro\n1. Sec\n2. Sec\n2.1. Sub" :=
  ⟨by decide, by decide, by decide⟩

/-- When `(m0, h0)` occurs at most once and is the only pair whose text is
`h0`, filtering out the pairs with text `h0` is exactly erasing the one
occurrence of `(m0, h0)`. -/
theorem filter_ne_erase (m0 : Nat) (h0 : String) :
    ∀ (ls : List (Nat × String)), ls.count (m0, h0) ≤ 1 →
      (∀ p ∈ ls, p.2 = h0 → p = (m0, h0)) →
      ls.filter (fun p => !(p.2 == h0)) = ls.erase (m0, h0) := by
  intro ls
  induction ls with
  | nil => intro _ _; rfl
  | cons a t ih =>
    intro hc hu
    by_cases hax : a = (m0, h0)
    · subst hax
      rw [List.erase_cons_head]
      have hxt : ((m0, h0) : Nat × String) ∉ t := by
        have h1 : t.count (m0, h0) + 1 ≤ 1 := by
          simpa [List.count_cons_self] using hc
        exact List.count_eq_zero.mp (by omega)
      have hfalse : (!((m0, h0).2 == h0)) = false := by simp
      rw [List.filter_cons, if_neg (by simp)]
      refine List.filter_eq_self.mpr ?_
      intro p hp
      have hpne : p ≠ (m0, h0) := fun h => hxt (h ▸ hp)
      have hp2 : p.2 ≠ h0 :=
        fun h => hpne (hu p (List.mem_cons_of_mem _ hp) h)
      simp [hp2]
    · have ha2 : a.2 ≠ h0 :=
        fun h => hax (hu a (List.mem_cons_self _ _) h)
      rw [List.erase_cons_tail (by simpa using hax), List.filter_cons,
        if_pos (by simp [ha2])]
      have hc' : t.count (m0, h0) ≤ 1 := by
        have := List.count_cons ((m0, h0) : Nat × String) a t
        have hne : ¬(a == ((m0, h0) : Nat × String)) = true := by simpa using hax
        simp only [hne, if_false] at this
        omega
      have hu' : ∀ p ∈ t, p.2 = h0 → p = (m0, h0) :=
        fun p hp => hu p (List.mem_cons_of_mem _ hp)
      rw [ih hc' hu']

/-- C5 counterexample: `process_title_detection` removes the title by
*text* equality, so on the sequence `[(1, "## x"), (2, "## x")]` — where
exactly one heading sits at the minimum level — it deletes *both*
entries, not just the unique minimum-level one: the remaining sequence is
`[]`, not `[(2, "## x")]`. -/
theorem title_removal_drops_duplicates :
    process_title_detection [(1, "## x"), (2, "## x")]
      = ([], some "Title: x", 1) ∧
    ([] : List (Nat × String)) ≠ [(2, "## x")] :=
  ⟨by decide, by decide⟩

/-- C5 amended: if exactly one heading has the minimum level, its cleaned
text becomes the title and every entry sharing that heading's *text* is
deleted; when no other entry has that text (as in pipeline sequences,
where the raw level is a function of the text), the remaining sequence is
exactly the input with that one element erased.  If two or more headings
share the minimum level, no title is produced and the sequence is
unchanged. -/
theorem process_title_detection_characterized :
    ∀ (ls : List (Nat × String)), ls ≠ [] →
      (∀ h0,
        (ls.filter (fun p => p.1 == list_min (ls.map Prod.fst))).map Prod.snd
          = [h0] →
        (∀ p ∈ ls, p.2 = h0 → p = (list_min (ls.map Prod.fst), h0)) →
        process_title_detection ls
          = (ls.erase (list_min (ls.map Prod.fst), h0),
             some ("Title: " ++ clean_header_text h0),
             list_min (ls.map Prod.fst))) ∧
      (∀ x y t,
        (ls.filter (fun p => p.1 == list_min (ls.map Prod.fst))).map Prod.snd
          = x :: y :: t →
        process_title_detection ls = (ls, none, list_min (ls.map Prod.fst))) := by
  intro ls _
  constructor
  · intro h0 hsingle huniq
    have hcount : ls.count (list_min (ls.map Prod.fst), h0) ≤ 1 := by
      have hfl : ls.filter (fun p => p.1 == list_min (ls.map Prod.fst))
          = [(list_min (ls.map Prod.fst), h0)] := by
        rcases hF : ls.filter (fun p => p.1 == list_min (ls.map Prod.fst)) with
          _ | ⟨q, rest⟩
        · rw [hF] at hsingle; simp at hsingle
        · rw [hF] at hsingle
          obtain ⟨q1, q2⟩ := q
          have hqmem : ((q1, q2) : Nat × String)
              ∈ ls.filter (fun p => p.1 == list_min (ls.map Prod.fst)) := by
            rw [hF]; exact List.mem_cons_self _ _
          have hq1 : q1 = list_min (ls.map Prod.fst) := by
            simpa using List.of_mem_filter hqmem
          simp only [List.map_cons, List.cons.injEq] at hsingle
          obtain ⟨hq2, hrest⟩ := hsingle
          rw [List.map_eq_nil_iff] at hrest
          subst hq1; subst hq2; subst hrest
          exact hF
      have hcf := List.count_filter
        (p := fun p => p.1 == list_min (ls.map Prod.fst))
        (a := ((list_min (ls.map Prod.fst), h0) : Nat × String))
        (l := ls) (by simp)
      rw [hfl] at hcf
      simp at hcf
      omega
    have herase := filter_ne_erase (list_min (ls.map Prod.fst)) h0 ls hcount huniq
    simp only [process_title_detection]
    rw [hsingle]
    show (ls.filter (fun p => !(p.2 == h0)),
        some ("Title: " ++ clean_header_text h0),
        list_min (ls.map Prod.fst)) = _
    rw [herase]
  · intro x y t hxy
    simp only [process_title_detection]
    rw [hxy]

/-- Witness for the amended C5 theorem: title case and no-title case. -/
theorem process_title_detection_characterized_witness :
    process_title_detection [(1, "# T"), (2, "## A")]
      = ([(1, "# T"), (2, "## A")].erase (1, "# T"),
         some ("Title: " ++ clean_header_text "# T"), 1) ∧
    process_title_detection [(1, "# T"), (1, "# U")]
      = ([(1, "# T"), (1, "# U")], none, 1) := by
  constructor
  · exact (process_title_detection_characterized [(1, "# T"), (2, "## A")]
      (by decide)).1 "# T" (by decide) (by decide)
  · exact (process_title_detection_characterized [(1, "# T"), (1, "# U")]
      (by decide)).2 "# T" "# U" [] (by decide)

/-- Folding `min` over elements that are all at least `a` returns `a`. -/
theorem foldl_min_eq (a : Nat) :
    ∀ (xs : List Nat), (∀ x ∈ xs, a ≤ x) → xs.foldl min a = a := by
  intro xs
  induction xs with
  | nil => intro _; rfl
  | cons x t ih =>
    intro h
    have hax : min a x = a := Nat.min_eq_left (h x (List.mem_cons_self _ _))
    simp only [List.foldl_cons, hax]
    exact ih (fun y hy => h y (List.mem_cons_of_mem _ hy))

/-- The first heading's own level, rebased by `its level - 1` and clamped,
is 1. -/
theorem first_norm_level_eq_one (h0 : String) :
    max (countHash h0 - (countHash h0 - 1)) 1 = 1 := by
  rcases Nat.eq_zero_or_pos (countHash h0) with h | h
  · simp [h]
  · have h1 : countHash h0 - (countHash h0 - 1) = 1 := by omega
    simp [h1]

/-- With the offset taken from the first heading, the minimum normalized
level is 1. -/
theorem norm_min_eq_one (h0 : String) (tl : List String) :
    list_min ((normalize_header_levels
      ((h0 :: tl).map (fun h => (countHash h, h)))
      (countHash h0 - 1)).map Prod.fst) = 1 := by
  simp only [normalize_header_levels, List.map_cons, List.map_map]
  show list_min ((max (countHash h0 - (countHash h0 - 1)) 1) :: _) = 1
  rw [first_norm_level_eq_one]
  simp only [list_min]
  refine foldl_min_eq 1 _ ?_
  intro x hx
  simp only [List.mem_map, Function.comp] at hx
  obtain ⟨a, _, rfl⟩ := hx
  exact Nat.le_max_right _ 1

/-- C6: normalizing with `offset = firstHeading.rawMarkupLevel - 1` and
`level = max(rawMarkupLevel - offset, 1)` makes the first heading's
normalized level exactly 1, and the minimum normalized level over all
headings equal to 1. -/
theorem normalization_rebases_min_to_one :
    ∀ (h0 : String) (tl : List String),
      ((normalize_header_levels ((h0 :: tl).map (fun h => (countHash h, h)))
        (countHash h0 - 1)).map Prod.fst).head? = some 1 ∧
      list_min ((normalize_header_levels
        ((h0 :: tl).map (fun h => (countHash h, h)))
        (countHash h0 - 1)).map Prod.fst) = 1 := by
  intro h0 tl
  constructor
  · simp [normalize_header_levels, first_norm_level_eq_one]
  · exact norm_min_eq_one h0 tl

/-- The total count of '#' in a line splits into the leading run and the
occurrences after it. -/
theorem countHash_decomposition (l : List Char) :
    l.count '#' = (l.takeWhile (· == '#')).length
      + (l.dropWhile (· == '#')).count '#' := by
  conv_lhs => rw [← List.takeWhile_append_dropWhile (p := (· == '#')) (l := l)]
  rw [List.count_append]
  congr 1
  refine List.count_eq_length.mpr ?_
  intro b hb
  have hbt := List.mem_takeWhile_imp hb
  have hbe : b = '#' := by simpa using hbt
  exact hbe.symm

/-- C7 counterexample: for the retained line "# A #" the code assigns
rawMarkupLevel = `"# A #".count('#')` = 2, while the number of
consecutive leading marker characters is 1. -/
theorem raw_level_counts_all_markers_cex :
    raw_header_levels ["# A #"] = [(2, "# A #")] ∧
    leading_marker_count "# A #" = 1 ∧ (2 : Nat) ≠ 1 :=
  ⟨by decide, by decide, by decide⟩

/-- C7 amended: the rawMarkupLevel assigned by heading extraction is the
*total* number of marker characters anywhere in the stripped line; it is
always at least the consecutive-leading-marker count, with equality
exactly when no '#' occurs after the leading run. -/
theorem raw_level_counts_all_markers :
    ∀ (lines : List String) (p : Nat × String), p ∈ raw_header_levels lines →
      p.1 = countHash p.2 ∧
      leading_marker_count p.2 ≤ p.1 ∧
      (p.1 = leading_marker_count p.2 ↔
        '#' ∉ p.2.toList.dropWhile (· == '#')) := by
  intro lines p hp
  simp only [raw_header_levels, List.mem_map] at hp
  obtain ⟨h, _, rfl⟩ := hp
  have hdec := countHash_decomposition h.toList
  refine ⟨rfl, ?_, ?_⟩
  · show leading_marker_count h ≤ countHash h
    unfold leading_marker_count countHash
    omega
  · show countHash h = leading_marker_count h ↔ _
    unfold leading_marker_count countHash
    constructor
    · intro he
      have hz : (h.toList.dropWhile (· == '#')).count '#' = 0 := by omega
      exact List.count_eq_zero.mp hz
    · intro hnm
      have hz : (h.toList.dropWhile (· == '#')).count '#' = 0 :=
        List.count_eq_zero.mpr hnm
      omega

/-- `update_counters` never raises, and preserves the key invariant: when
the keys 1..max 6 prev are present and the (clamped) level is at most
`prev + 1`, the update succeeds and the keys 1..max 6 level are present
afterwards. -/
theorem update_counters_some
    (c : Counters) (level prev : Nat) (hg : goodC c (max 6 prev))
    (h1 : 1 ≤ level) (hle : level ≤ prev + 1) :
    ∃ c', update_counters c level prev = some c' ∧ goodC c' (max 6 level) := by
  have hbr : ∃ v, (if level = prev then cinc c level
      else if prev < level then some (cset c level 1)
      else cinc c level) = some (cset c level v) := by
    by_cases he : level = prev
    · have hsome := hg level h1
        (le_trans (he ▸ le_refl level) (Nat.le_max_right 6 prev))
      obtain ⟨v, hv⟩ := Option.isSome_iff_exists.mp hsome
      exact ⟨v + 1, by rw [if_pos he]; simp [cinc, hv]⟩
    · by_cases hlt : prev < level
      · exact ⟨1, by rw [if_neg he, if_pos hlt]⟩
      · have hlv : level ≤ prev := by omega
        have hsome := hg level h1 (le_trans hlv (Nat.le_max_right 6 prev))
        obtain ⟨v, hv⟩ := Option.isSome_iff_exists.mp hsome
        exact ⟨v + 1, by rw [if_neg he, if_neg hlt]; simp [cinc, hv]⟩
  obtain ⟨v, hv⟩ := hbr
  refine ⟨zeroDeep (cset c level v) level, ?_, ?_⟩
  · unfold update_counters
    rw [hv]
    rfl
  · intro i hi1 hile
    simp only [zeroDeep]
    by_cases hcond : level + 1 ≤ i ∧ i ≤ 6
    · rw [if_pos hcond]; rfl
    · rw [if_neg hcond]
      simp only [cset]
      by_cases hieq : i = level
      · rw [if_pos hieq]; rfl
      · rw [if_neg hieq]
        refine hg i hi1 ?_
        have hM1 : 6 ≤ max 6 prev := Nat.le_max_left _ _
        have hM2 : prev ≤ max 6 prev := Nat.le_max_right _ _
        rcases Nat.le_total i 6 with hc6 | hc6
        · omega
        · have hilev : i ≤ level := by
            rcases Nat.le_total 6 level with h6 | h6
            · rwa [Nat.max_eq_right h6] at hile
            · rw [Nat.max_eq_left h6] at hile; omega
          omega

/-- `mapM` over `Option` succeeds when every element does. -/
theorem mapM_isSome (f : Nat → Option String) :
    ∀ (l : List Nat), (∀ i ∈ l, (f i).isSome = true) →
      (l.mapM f).isSome = true := by
  intro l
  induction l with
  | nil => intro _; rfl
  | cons x t ih =>
    intro h
    obtain ⟨b, hb⟩ := Option.isSome_iff_exists.mp (h x (List.mem_cons_self _ _))
    obtain ⟨bs, hbs⟩ := Option.isSome_iff_exists.mp
      (ih (fun i hi => h i (List.mem_cons_of_mem _ hi)))
    rw [List.mapM_cons, hb, hbs]
    rfl

/-- `calculate_numbering` never raises when the keys 1..max 6 level are
present. -/
theorem calculate_numbering_isSome
    (c : Counters) (level : Nat) (ht : Bool) (ml : Nat)
    (hg : goodC c (max 6 level)) (_hl : 1 ≤ level) :
    (calculate_numbering c level ht ml).isSome = true := by
  have hgood : ∀ i, 1 ≤ i → i ≤ 6 → (c i).isSome = true :=
    fun i a b => hg i a (le_trans b (Nat.le_max_left _ _))
  obtain ⟨v1, hv1⟩ := Option.isSome_iff_exists.mp (hgood 1 (by omega) (by omega))
  obtain ⟨v2, hv2⟩ := Option.isSome_iff_exists.mp (hgood 2 (by omega) (by omega))
  obtain ⟨v3, hv3⟩ := Option.isSome_iff_exists.mp (hgood 3 (by omega) (by omega))
  have hjoin : (join_parts c level).isSome = true := by
    unfold join_parts
    have hm := mapM_isSome (fun i => (c i).map str_of_nat) (List.range' 1 level) ?_
    · obtain ⟨parts, hparts⟩ := Option.isSome_iff_exists.mp hm
      rw [hparts]
      rfl
    · intro i hi
      obtain ⟨k, hk, rfl⟩ := List.mem_range'.mp hi
      have hi1 : 1 ≤ 1 + 1 * k := by omega
      have hil : 1 + 1 * k ≤ level := by omega
      obtain ⟨v, hv⟩ := Option.isSome_iff_exists.mp
        (hg _ hi1 (le_trans hil (Nat.le_max_right 6 level)))
      show ((c (1 + 1 * k)).map str_of_nat).isSome = true
      rw [hv]
      rfl
  unfold calculate_numbering
  cases ht with
  | true =>
    by_cases hl1 : level = ml + 1
    · simp [hl1, hv2]
    · by_cases hl2 : level = ml + 2
      · simp [hl1, hl2, hv2, hv3]
      · simpa [hl1, hl2] using hjoin
  | false =>
    by_cases hl1 : level = 1
    · simp [hl1, hv1]
    · by_cases hl2 : level = 2
      · simp [hl1, hl2, hv1, hv2]
      · by_cases hl3 : level = 3
        · simp [hl1, hl2, hl3, hv1, hv2, hv3]
        · simpa [hl1, hl2, hl3] using hjoin

/-- The numbering loop never raises: from any state whose counter keys
cover 1..max 6 prev and any heading list with levels at least 1, it
returns a result. -/
theorem phl_aux_isSome (ht : Bool) (ml : Nat) :
    ∀ (ls : List (Nat × String)) (c : Counters) (prev : Nat),
      1 ≤ prev → goodC c (max 6 prev) → (∀ p ∈ ls, 1 ≤ p.1) →
      (phl_aux ht ml ls c prev).isSome = true := by
  intro ls
  induction ls with
  | nil => intro c prev _ _ _; rfl
  | cons hd rest ih =>
    intro c prev hprev hg hall
    obtain ⟨lvl, header⟩ := hd
    have hl1 : 1 ≤ lvl := hall (lvl, header) (List.mem_cons_self _ _)
    have hcur1 : 1 ≤ effective_level lvl prev :=
      Nat.le_min.mpr ⟨hl1, by omega⟩
    have hcurle : effective_level lvl prev ≤ prev + 1 := Nat.min_le_right _ _
    obtain ⟨c', hc', hg'⟩ :=
      update_counters_some c (effective_level lvl prev) prev hg hcur1 hcurle
    obtain ⟨num, hnum⟩ := Option.isSome_iff_exists.mp
      (calculate_numbering_isSome c' (effective_level lvl prev) ht ml hg' hcur1)
    obtain ⟨r, hr⟩ := Option.isSome_iff_exists.mp
      (ih c' (effective_level lvl prev) hcur1 hg'
        (fun p hp => hall p (List.mem_cons_of_mem _ hp)))
    simp [phl_aux, hc', hnum, hr]

/-- `process_title_detection` reports the minimum level of its input and
returns a sub-collection of its input. -/
theorem ptd_min_and_subset (ls : List (Nat × String)) :
    (process_title_detection ls).2.2 = list_min (ls.map Prod.fst) ∧
    ∀ p ∈ (process_title_detection ls).1, p ∈ ls := by
  simp only [process_title_detection]
  rcases hm : (ls.filter
      (fun p => p.1 == list_min (ls.map Prod.fst))).map Prod.snd with _ | ⟨x, t⟩
  · rw [hm]
    exact ⟨rfl, fun p hp => hp⟩
  · rcases t with _ | ⟨y, t2⟩
    · rw [hm]
      exact ⟨rfl, fun p hp => List.mem_of_mem_filter hp⟩
    · rw [hm]
      exact ⟨rfl, fun p hp => hp⟩

/-- Every normalized level is at least 1. -/
theorem normalized_levels_ge_one (ls : List (Nat × String)) (off : Nat) :
    ∀ p ∈ normalize_header_levels ls off, 1 ≤ p.1 := by
  intro p hp
  simp only [normalize_header_levels, List.mem_map] at hp
  obtain ⟨q, _, rfl⟩ := hp
  exact Nat.le_max_right _ 1

/-- C8: the outline builder is total — on every input it returns a result;
in particular no counter-dictionary lookup in `update_counters` or
`calculate_numbering` ever hits a missing key (`none` here models a
Python `KeyError`), even when effective levels exceed 6. -/
theorem extract_headers_total :
    ∀ (lines : List String), (extract_headers lines).isSome = true := by
  intro lines
  rcases hE : extract_header_lines lines with _ | ⟨h0, tl⟩
  · simp [extract_headers, hE]
  · simp only [extract_headers, hE]
    rw [if_neg (by simp)]
    rw [Option.isSome_map']
    unfold process_header_levels
    rw [Option.isSome_map']
    have hml : (process_title_detection (normalize_header_levels
        ((h0 :: tl).map (fun h => (countHash h, h)))
        (first_raw_level (h0 :: tl) - 1))).2.2 = 1 := by
      rw [(ptd_min_and_subset _).1]
      exact norm_min_eq_one h0 tl
    rw [hml]
    refine phl_aux_isSome _ _ _ _ _ (by omega) ?_ ?_
    · intro i hi1 hi6
      have hi6' : i ≤ 6 := by simpa using hi6
      simp [initCounters, hi1, hi6']
    · intro p hp
      exact normalized_levels_ge_one _ _ p ((ptd_min_and_subset _).2 p hp)

/-- String append concatenates the character lists. -/
theorem toList_append (a b : String) : (a ++ b).toList = a.toList ++ b.toList :=
  rfl

/-- Every character produced by the decimal digit conversion is a digit,
provided the accumulator holds only digits. -/
theorem toDigitsCore_all_digits :
    ∀ (fuel n : Nat) (ds : List Char), (∀ c ∈ ds, c.isDigit = true) →
      ∀ c ∈ Nat.toDigitsCore 10 fuel n ds, c.isDigit = true := by
  intro fuel
  induction fuel with
  | zero => intro n ds h c hc; exact h c hc
  | succ f ih =>
    intro n ds h c hc
    have hlt : n % 10 < 10 := Nat.mod_lt _ (by omega)
    have hd : (Nat.digitChar (n % 10)).isDigit = true := by
      set m := n % 10 with hm
      interval_cases m <;> decide
    simp only [Nat.toDigitsCore] at hc
    by_cases hq : n / 10 = 0
    · rw [if_pos hq] at hc
      rcases List.mem_cons.mp hc with rfl | hmem
      · exact hd
      · exact h c hmem
    · rw [if_neg hq] at hc
      refine ih (n / 10) (Nat.digitChar (n % 10) :: ds) ?_ c hc
      intro x hx
      rcases List.mem_cons.mp hx with rfl | hmem
      · exact hd
      · exact h x hmem

/-- The decimal digit conversion never returns the empty list when given
fuel or a nonempty accumulator. -/
theorem toDigitsCore_ne_nil :
    ∀ (fuel n : Nat) (ds : List Char), (ds ≠ [] ∨ 1 ≤ fuel) →
      Nat.toDigitsCore 10 fuel n ds ≠ [] := by
  intro fuel
  induction fuel with
  | zero =>
    intro n ds h
    rcases h with h | h
    · simpa [Nat.toDigitsCore] using h
    · omega
  | succ f ih =>
    intro n ds _
    simp only [Nat.toDigitsCore]
    by_cases hq : n / 10 = 0
    · rw [if_pos hq]; exact List.cons_ne_nil _ _
    · rw [if_neg hq]
      exact ih (n / 10) _ (Or.inl (List.cons_ne_nil _ _))

/-- The decimal rendering of a natural number starts with a digit. -/
theorem repr_head_digit (n : Nat) :
    ∃ c cs, (Nat.repr n).toList = c :: cs ∧ c.isDigit = true := by
  have hne : Nat.toDigits 10 n ≠ [] :=
    toDigitsCore_ne_nil (n + 1) n [] (Or.inr (by omega))
  rcases hd : Nat.toDigits 10 n with _ | ⟨c, cs⟩
  · exact absurd hd hne
  · refine ⟨c, cs, ?_, ?_⟩
    · show Nat.toDigits 10 n = c :: cs
      exact hd
    · refine toDigitsCore_all_digits (n + 1) n [] ?_ c ?_
      · intro x hx; exact absurd hx (List.not_mem_nil x)
      · show c ∈ Nat.toDigits 10 n
        rw [hd]; exact List.mem_cons_self _ _

/-- The join of a nonempty list starts with the characters of its first
element. -/
theorem py_join_toList (sep : String) (x : String) (xs : List String) :
    ∃ r, (py_join sep (x :: xs)).toList = x.toList ++ r := by
  cases xs with
  | nil => exact ⟨[], by simp [py_join]⟩
  | cons y t =>
    refine ⟨sep.toList ++ (py_join sep (y :: t)).toList, ?_⟩
    show ((x ++ sep) ++ py_join sep (y :: t)).toList = _
    rw [toList_append, toList_append, List.append_assoc]

/-- Inversion for a successful `mapM` over `Option` on a cons cell. -/
theorem mapM_cons_inv (f : Nat → Option String) (x : Nat) (t : List Nat)
    (res : List String) (h : (x :: t).mapM f = some res) :
    ∃ b bs, f x = some b ∧ t.mapM f = some bs ∧ res = b :: bs := by
  rw [List.mapM_cons] at h
  cases hfx : f x with
  | none => rw [hfx] at h; simp at h
  | some b =>
    rw [hfx] at h
    cases hmt : t.mapM f with
    | none => rw [hmt] at h; simp at h
    | some bs =>
      rw [hmt] at h
      have h2 : some (b :: bs) = some res := h
      exact ⟨b, bs, rfl, rfl, (Option.some.inj h2).symm⟩

/-- Every label produced by `calculate_numbering` is empty or starts with
a digit. -/
theorem calculate_numbering_head (c : Counters) (level : Nat) (ht : Bool)
    (ml : Nat) (s : String)
    (h : calculate_numbering c level ht ml = some s) :
    s.toList = [] ∨ ∃ c0 cs, s.toList = c0 :: cs ∧ c0.isDigit = true := by
  have hone : ∀ v : Nat, ∀ rest : String,
      ∃ c0 cs, (str_of_nat v ++ rest).toList = c0 :: cs ∧ c0.isDigit = true := by
    intro v rest
    obtain ⟨c0, cs, hcl, hdig⟩ := repr_head_digit v
    refine ⟨c0, cs ++ rest.toList, ?_, hdig⟩
    rw [toList_append]
    show (Nat.repr v).toList ++ rest.toList = _
    rw [hcl]
    rfl
  have hplain : ∀ v : Nat,
      ∃ c0 cs, (str_of_nat v).toList = c0 :: cs ∧ c0.isDigit = true := by
    intro v
    exact repr_head_digit v
  have hjoin : ∀ s', join_parts c level = some s' →
      s'.toList = [] ∨ ∃ c0 cs, s'.toList = c0 :: cs ∧ c0.isDigit = true := by
    intro s' hj
    unfold join_parts at hj
    obtain ⟨parts, hparts, rfl⟩ := Option.map_eq_some'.mp hj
    cases hr : List.range' 1 level with
    | nil =>
      rw [hr] at hparts
      have hpn : parts = [] := by
        have h2 : some [] = some parts := hparts
        exact (Option.some.inj h2).symm
      subst hpn
      exact Or.inl rfl
    | cons i is =>
      rw [hr] at hparts
      obtain ⟨b, bs, hfi, _, rfl⟩ := mapM_cons_inv _ i is parts hparts
      obtain ⟨v, _, rfl⟩ := Option.map_eq_some'.mp hfi
      obtain ⟨r, hrj⟩ := py_join_toList "." (str_of_nat v) bs
      obtain ⟨c0, cs, hcl, hdig⟩ := hplain v
      refine Or.inr ⟨c0, cs ++ r, ?_, hdig⟩
      rw [hrj, hcl]
      rfl
  unfold calculate_numbering at h
  cases ht with
  | true =>
    rw [if_pos rfl] at h
    by_cases hl1 : level = ml + 1
    · rw [if_pos hl1] at h
      obtain ⟨v, _, rfl⟩ := Option.map_eq_some'.mp h
      exact Or.inr (hplain v)
    · rw [if_neg hl1] at h
      by_cases hl2 : level = ml + 2
      · rw [if_pos hl2] at h
        obtain ⟨a, _, h2⟩ := Option.bind_eq_some.mp h
        obtain ⟨b, _, rfl⟩ := Option.map_eq_some'.mp h2
        refine Or.inr ?_
        rw [String.append_assoc]
        exact hone a _
      · rw [if_neg hl2] at h
        exact hjoin s h
  | false =>
    rw [if_neg (by simp)] at h
    by_cases hl1 : level = 1
    · rw [if_pos hl1] at h
      obtain ⟨v, _, rfl⟩ := Option.map_eq_some'.mp h
      exact Or.inr (hplain v)
    · rw [if_neg hl1] at h
      by_cases hl2 : level = 2
      · rw [if_pos hl2] at h
        obtain ⟨a, _, h2⟩ := Option.bind_eq_some.mp h
        obtain ⟨b, _, rfl⟩ := Option.map_eq_some'.mp h2
        refine Or.inr ?_
        rw [String.append_assoc]
        exact hone a _
      · rw [if_neg hl2] at h
        by_cases hl3 : level = 3
        · rw [if_pos hl3] at h
          obtain ⟨a, _, h2⟩ := Option.bind_eq_some.mp h
          obtain ⟨b, _, h3⟩ := Option.bind_eq_some.mp h2
          obtain ⟨d, _, rfl⟩ := Option.map_eq_some'.mp h3
          refine Or.inr ?_
          rw [String.append_assoc, String.append_assoc, String.append_assoc]
          exact hone a _
        · rw [if_neg hl3] at h
          exact hjoin s h

/-- Inversion of one successful step of the numbering loop. -/
theorem phl_aux_cons_inv (ht : Bool) (ml : Nat) (lvl : Nat) (header : String)
    (rest : List (Nat × String)) (c : Counters) (prev : Nat)
    (res : List String × Counters × Nat)
    (h : phl_aux ht ml ((lvl, header) :: rest) c prev = some res) :
    ∃ c1 num tres,
      update_counters c (effective_level lvl prev) prev = some c1 ∧
      calculate_numbering c1 (effective_level lvl prev) ht ml = some num ∧
      res.1 = (num ++ ". " ++ clean_header_text header) :: tres := by
  simp only [phl_aux] at h
  cases hu : update_counters c (effective_level lvl prev) prev with
  | none => rw [hu] at h; simp at h
  | some c1 =>
    rw [hu, Option.some_bind] at h
    cases hn : calculate_numbering c1 (effective_level lvl prev) ht ml with
    | none => rw [hn] at h; simp at h
    | some num =>
      rw [hn, Option.some_bind] at h
      obtain ⟨r, _, hres⟩ := Option.map_eq_some'.mp h
      exact ⟨c1, num, r.1, rfl, hn, by rw [← hres]⟩

/-- When no title is detected the heading sequence is unchanged. -/
theorem ptd_none_unchanged (ls : List (Nat × String))
    (h : (process_title_detection ls).2.1 = none) :
    (process_title_detection ls).1 = ls := by
  simp only [process_title_detection] at h ⊢
  rcases hm : (ls.filter
      (fun p => p.1 == list_min (ls.map Prod.fst))).map Prod.snd with _ | ⟨x, t⟩
  · rw [hm]
  · rcases t with _ | ⟨y, t2⟩
    · rw [hm] at h
      simp at h
    · rw [hm]

/-- C9: the outline builder returns the fixed sentinel string exactly when
no stripped input line starts with the heading marker; on any input with
at least one heading line the output differs from the sentinel (its first
character is a newline, a digit, or a dot — never the sentinel's 'N'). -/
theorem sentinel_iff_no_headers :
    ∀ (lines : List String),
      (extract_headers lines = some sentinel ↔
        extract_header_lines lines = []) := by
  intro lines
  constructor
  · intro h
    rcases hE : extract_header_lines lines with _ | ⟨h0, tl⟩
    · rfl
    · exfalso
      simp only [extract_headers, hE] at h
      rw [if_neg (by simp)] at h
      obtain ⟨formatted, hfmt, hjoin⟩ := Option.map_eq_some'.mp h
      have hsl : sentinel.toList
          = 'N' :: "o valid headers identified.".toList := by decide
      cases hT : (process_title_detection (normalize_header_levels
          ((h0 :: tl).map (fun h => (countHash h, h)))
          (first_raw_level (h0 :: tl) - 1))).2.1 with
      | some t =>
        rw [hT] at hjoin
        have hjoin2 : py_join "\n" (("\n" ++ t) :: formatted) = sentinel := hjoin
        obtain ⟨r, hr⟩ := py_join_toList "\n" ("\n" ++ t) formatted
        rw [hjoin2, hsl] at hr
        have h2 : ("\n" ++ t).toList = '\n' :: t.toList := rfl
        rw [h2] at hr
        simp only [List.cons_append] at hr
        exact absurd (List.cons.inj hr).1 (by decide)
      | none =>
        rw [hT] at hjoin
        have hjoin2 : py_join "\n" formatted = sentinel := hjoin
        have hR1 := ptd_none_unchanged _ hT
        rw [hR1] at hfmt
        unfold process_header_levels at hfmt
        obtain ⟨r0, hr0, hfres⟩ := Option.map_eq_some'.mp hfmt
        have hfres' : r0.1 = formatted := hfres
        have hnorm : normalize_header_levels
            ((h0 :: tl).map (fun h => (countHash h, h)))
            (first_raw_level (h0 :: tl) - 1)
            = (max (countHash h0 - (first_raw_level (h0 :: tl) - 1)) 1, h0) ::
              normalize_header_levels (tl.map (fun h => (countHash h, h)))
                (first_raw_level (h0 :: tl) - 1) := rfl
        rw [hnorm] at hr0
        obtain ⟨c1, num, tres, _, hn, hres1⟩ :=
          phl_aux_cons_inv _ _ _ _ _ _ _ _ hr0
        rw [← hfres', hres1] at hjoin2
        obtain ⟨r, hr⟩ :=
          py_join_toList "\n" (num ++ ". " ++ clean_header_text h0) tres
        rw [hjoin2, hsl] at hr
        rcases calculate_numbering_head _ _ _ _ _ hn with
          hnil | ⟨c0, cs, hctl, hdig⟩
        · have hline : (num ++ ". " ++ clean_header_text h0).toList
              = num.toList ++ ('.' :: ' ' :: (clean_header_text h0).toList) := by
            rw [toList_append, toList_append, List.append_assoc]
            rfl
          rw [hline, hnil] at hr
          simp only [List.nil_append, List.cons_append] at hr
          exact absurd (List.cons.inj hr).1 (by decide)
        · have hline : (num ++ ". " ++ clean_header_text h0).toList
              = c0 :: (cs ++ ('.' :: ' ' :: (clean_header_text h0).toList)) := by
            rw [toList_append, toList_append, List.append_assoc, hctl]
            rfl
          rw [hline] at hr
          simp only [List.cons_append] at hr
          have hce := (List.cons.inj hr).1
          rw [← hce] at hdig
          exact absurd hdig (by decide)
  · intro h
    simp [extract_headers, h]

/-- C10: whenever title detection promotes a heading on a
pipeline-produced sequence (normalized with the offset taken from the
first heading), the title is the *first* heading of the document: its
text is the cleaned text of the first extracted heading line. -/
theorem title_is_first_heading :
    ∀ (h0 : String) (tl : List String) (t : String),
      (process_title_detection (normalize_header_levels
        ((h0 :: tl).map (fun h => (countHash h, h)))
        (countHash h0 - 1))).2.1 = some t →
      t = "Title: " ++ clean_header_text h0 := by
  intro h0 tl t hT
  have hmin : list_min ((normalize_header_levels
      ((h0 :: tl).map (fun h => (countHash h, h)))
      (countHash h0 - 1)).map Prod.fst) = 1 := norm_min_eq_one h0 tl
  simp only [process_title_detection] at hT
  rw [hmin] at hT
  have hhead1 : (((max (countHash h0 - (countHash h0 - 1)) 1, h0) :
      Nat × String).1 == 1) = true := by
    have h1 := first_norm_level_eq_one h0
    simp [h1]
  have hfilter : (normalize_header_levels
      ((h0 :: tl).map (fun h => (countHash h, h)))
      (countHash h0 - 1)).filter (fun p => p.1 == 1)
      = (max (countHash h0 - (countHash h0 - 1)) 1, h0) ::
        (normalize_header_levels (tl.map (fun h => (countHash h, h)))
          (countHash h0 - 1)).filter (fun p => p.1 == 1) := by
    show ((max (countHash h0 - (countHash h0 - 1)) 1, h0) ::
        normalize_header_levels (tl.map (fun h => (countHash h, h)))
          (countHash h0 - 1)).filter (fun p => p.1 == 1) = _
    rw [List.filter_cons, if_pos hhead1]
  rw [hfilter, List.map_cons] at hT
  rcases hrest : ((normalize_header_levels (tl.map (fun h => (countHash h, h)))
      (countHash h0 - 1)).filter (fun p => p.1 == 1)).map Prod.snd
    with _ | ⟨q, qs⟩
  · rw [hrest] at hT
    have hT2 : some ("Title: " ++ clean_header_text h0) = some t := hT
    exact (Option.some.inj hT2).symm
  · rw [hrest] at hT
    have hT2 : (none : Option String) = some t := hT
    exact absurd hT2 (by simp)

/-- Witness for the C10 theorem on a concrete two-heading document. -/
theorem title_is_first_heading_witness :
    ("Title: T" : String) = "Title: " ++ clean_header_text "# T" :=
  title_is_first_heading "# T" ["## A"] "Title: T" (by decide)

/-- Witness for the amended C7 theorem at a concrete retained line. -/
theorem raw_level_counts_all_markers_witness :
    (2 : Nat) = countHash "## B" ∧
    leading_marker_count "## B" ≤ 2 ∧
    ((2 : Nat) = leading_marker_count "## B" ↔
      '#' ∉ ("## B").toList.dropWhile (· == '#')) :=
  raw_level_counts_all_markers ["## B"] (2, "## B") (by decide)
